import Mathlib

/-
Verification of the keymanager routes of filoozom/lodestar
(src/packages/api/src/keymanager/routes.ts).

The repository ships the keymanager API surface: the `ImportStatus` and
`DeletionStatus` enums, the `Api` contract for `listKeys` / `importKeystores` /
`deleteKeystores` together with their documented semantics, and the request
serializers `getReqSerializers`.  The coordinator implementations behind the
`Api` type are not part of the shipped sources, so they are modelled here
faithfully from the specification text; the serializers are embedded directly
from the source.

Store mutations are represented as an explicit event trace (`Ev`), and a
coordinator returns both its per-item statuses and the ordered list of durable
store writes it performs.  Replaying a prefix of that trace yields exactly the
states reachable if the process crashes mid-call, which is how the ordering /
crash-safety sentences of the specification are stated.
-/

namespace Keymanager

/-- The validator BLS public key, 48 bytes hex encoded with 0x prefix; the
canonical hex string is the identity used by both stores. -/
abbrev Pubkey := String

/-- Per-public-key history of prior signing activity, the payload of the
EIP-3076 interchange format: signed block slots and signed attestation
(source epoch, target epoch) pairs. -/
structure SlashingProtectionRecord where
  signed_blocks : List Nat
  signed_attestations : List (Nat × Nat)
  deriving DecidableEq

/-- ImportStatus enum of src/packages/api/src/keymanager/routes.ts. -/
inductive ImportStatus where
  | imported
  | duplicate
  | error
  deriving DecidableEq

/-- DeletionStatus enum of src/packages/api/src/keymanager/routes.ts. -/
inductive DeletionStatus where
  | deleted
  | not_active
  | not_found
  | error
  deriving DecidableEq

/-- One element of a `Statuses<Status>` list: a status plus optional message. -/
structure StatusEntry (S : Type) where
  status : S
  message : Option String
  deriving DecidableEq

/-- An active key entry of the KeyStore. -/
structure KeyEntry where
  pubkey : Pubkey
  derivationPath : Option String
  readonly : Bool
  deriving DecidableEq

/-- The two persistent stores: the KeyStore (insertion ordered list of active
entries) and the SlashingProtectionStore (association list keyed by pubkey). -/
structure KeymanagerState where
  keystore : List KeyEntry
  protection : List (Pubkey × SlashingProtectionRecord)
  deriving DecidableEq

/-- KeyStore lookup of the entry for a pubkey. -/
def findEntry (s : KeymanagerState) (pk : Pubkey) : Option KeyEntry :=
  s.keystore.find? (fun e => e.pubkey == pk)

/-- Whether a pubkey is signing-capable (present in the KeyStore). -/
def activeIn (s : KeymanagerState) (pk : Pubkey) : Bool :=
  s.keystore.any (fun e => e.pubkey == pk)

/-- SlashingProtectionStore lookup of the record for a pubkey. -/
def lookupRecord (prot : List (Pubkey × SlashingProtectionRecord)) (pk : Pubkey) :
    Option SlashingProtectionRecord :=
  Option.map Prod.snd (prot.find? (fun q => q.1 == pk))

/-- The empty protection record. -/
def emptyRecord : SlashingProtectionRecord :=
  { signed_blocks := [], signed_attestations := [] }

/-- Set union of two protection records (duplicate-free append); merging is
union-only, never destructive. -/
def unionRecord (a b : SlashingProtectionRecord) : SlashingProtectionRecord :=
  { signed_blocks :=
      a.signed_blocks ++ b.signed_blocks.filter (fun x => ! a.signed_blocks.contains x),
    signed_attestations :=
      a.signed_attestations ++
        b.signed_attestations.filter (fun x => ! a.signed_attestations.contains x) }

/-- `recContains big small` : every signed block and attestation of `small`
is present in `big`. -/
def recContains (big small : SlashingProtectionRecord) : Prop :=
  (∀ x ∈ small.signed_blocks, x ∈ big.signed_blocks) ∧
  (∀ x ∈ small.signed_attestations, x ∈ big.signed_attestations)

/-- Merge a record for `pk` into the protection store: union into the existing
record when one exists, otherwise append a fresh entry. -/
def mergeIntoStore (prot : List (Pubkey × SlashingProtectionRecord)) (pk : Pubkey)
    (rec : SlashingProtectionRecord) : List (Pubkey × SlashingProtectionRecord) :=
  match prot with
  | [] => [(pk, rec)]
  | q :: t => if q.1 == pk then (q.1, unionRecord q.2 rec) :: t else q :: mergeIntoStore t pk rec

/-- A durable, persistence-visible store operation.  A coordinator call is a
sequence of these; any prefix of the sequence is a crash-reachable state. -/
inductive Ev where
  | mergeProtection (pk : Pubkey) (rec : SlashingProtectionRecord)
  | addKey (entry : KeyEntry)
  | removeKey (pk : Pubkey)
  | exportRecord (pk : Pubkey)
  deriving DecidableEq

/-- Effect of one durable operation on the two stores. -/
def applyEv (s : KeymanagerState) : Ev → KeymanagerState
  | Ev.mergeProtection pk rec => { s with protection := mergeIntoStore s.protection pk rec }
  | Ev.addKey e => { s with keystore := s.keystore ++ [e] }
  | Ev.removeKey pk => { s with keystore := s.keystore.filter (fun e => ! (e.pubkey == pk)) }
  | Ev.exportRecord _ => s

/-- Replay a trace of durable operations from a state. -/
def replay (s : KeymanagerState) : List Ev → KeymanagerState
  | [] => s
  | e :: evs => replay (applyEv s e) evs

/-- One per-pubkey entry of a parsed EIP-3076 interchange payload. -/
structure InterchangeEntry where
  pubkey : Pubkey
  signed_blocks : List Nat
  signed_attestations : List (Nat × Nat)
  deriving DecidableEq

/-- A parsed EIP-3076 interchange payload. -/
structure Interchange where
  genesis_validators_root : String
  data : List InterchangeEntry
  deriving DecidableEq

/-- The protection record carried by one interchange entry. -/
def entryRecord (e : InterchangeEntry) : SlashingProtectionRecord :=
  { signed_blocks := e.signed_blocks, signed_attestations := e.signed_attestations }

/-- The slice of a parsed interchange payload belonging to one pubkey, merged
into a single record. -/
def mergedSlice (ipt : Interchange) (pk : Pubkey) : SlashingProtectionRecord :=
  (ipt.data.filter (fun e => e.pubkey == pk)).foldl
    (fun acc e => unionRecord acc (entryRecord e)) emptyRecord

/-- Result of the external Decryptor collaborator on one keystore + password. -/
inductive DecryptResult where
  | ok (pubkey : Pubkey) (derivationPath : Option String)
  | err (message : String)
  deriving DecidableEq

/-- Modelled from the spec: the ImportCoordinator body behind
`Api.importKeystores` is not among the shipped sources (routes.ts only declares
the contract), so its per-item step follows the specification text.  Decrypt
the keystore; on failure record `error` and continue.  On success derive the
pubkey; if already present in the KeyStore record `duplicate` with no store
mutation.  Otherwise perform two ordered durable steps: first merge the
pubkey's slice of the parsed protection data into the SlashingProtectionStore,
and only then add the KeyEntry to the KeyStore. -/
def importOne (decrypt : String → String → DecryptResult) (ipt : Interchange)
    (s : KeymanagerState) (ks pw : String) : StatusEntry ImportStatus × List Ev :=
  match decrypt ks pw with
  | DecryptResult.err m => ({ status := ImportStatus.error, message := some m }, [])
  | DecryptResult.ok pk path =>
    if activeIn s pk then ({ status := ImportStatus.duplicate, message := none }, [])
    else
      ({ status := ImportStatus.imported, message := none },
        [Ev.mergeProtection pk (mergedSlice ipt pk),
         Ev.addKey { pubkey := pk, derivationPath := path, readonly := false }])

/-- Modelled from the spec: the import batch loop.  Each index is processed
independently against the state produced by the durable writes of the earlier
items; a per-item failure never aborts the rest of the batch. -/
def importGo (decrypt : String → String → DecryptResult) (ipt : Interchange) :
    KeymanagerState → List (String × String) → List (StatusEntry ImportStatus) × List Ev
  | _, [] => ([], [])
  | s, p :: rest =>
    let r := importOne decrypt ipt s p.1 p.2
    let r2 := importGo decrypt ipt (replay s r.2) rest
    (r.1 :: r2.1, r.2 ++ r2.2)

/-- Modelled from the spec: `Api.importKeystores`.  A structurally invalid
request (mismatched array lengths, unparseable slashing-protection payload)
rejects the whole call before any store mutation; otherwise the payload is
parsed once up front and the batch loop runs. -/
def importKeystores (decrypt : String → String → DecryptResult)
    (parseInterchange : String → Option Interchange) (s : KeymanagerState)
    (keystoresStr : List String) (passwords : List String)
    (slashingProtectionStr : String) :
    Except String (List (StatusEntry ImportStatus) × List Ev) :=
  if keystoresStr.length = passwords.length then
    match parseInterchange slashingProtectionStr with
    | none => Except.error "ParseError"
    | some ipt => Except.ok (importGo decrypt ipt s (keystoresStr.zip passwords))
  else Except.error "mismatched array lengths"

/-- State of both stores after an `importKeystores` call completes (a rejected
call performs no durable write). -/
def importFinal (decrypt : String → String → DecryptResult)
    (parseInterchange : String → Option Interchange) (s : KeymanagerState)
    (keystoresStr : List String) (passwords : List String)
    (slashingProtectionStr : String) : KeymanagerState :=
  match importKeystores decrypt parseInterchange s keystoresStr passwords
      slashingProtectionStr with
  | Except.error _ => s
  | Except.ok r => replay s r.2

/-- Whether removing `pk` from the KeyStore would fail: the entry exists but is
readonly (deletion disallowed by policy) or the persistence layer refuses the
removal (`removeOk` is the fault oracle of the external PersistenceLayer). -/
def removalFails (removeOk : Pubkey → Bool) (s : KeymanagerState) (pk : Pubkey) : Bool :=
  match findEntry s pk with
  | some e => e.readonly || ! removeOk pk
  | none => false

/-- Modelled from the spec: the DeletionCoordinator per-pubkey step behind
`Api.deleteKeystores` is not among the shipped sources (routes.ts only declares
the contract), so it follows the specification text.  If the key is present:
a readonly entry or a persistence refusal yields `error` and the key stays
active; otherwise the capability-revoking removal is durably committed first
and only then the retained protection record is exported (`deleted`).  If the
key is absent: `not_active` when a protection record exists (export only reads
the store), else `not_found`. -/
def deleteOne (removeOk : Pubkey → Bool) (s : KeymanagerState) (pk : Pubkey) :
    StatusEntry DeletionStatus × List Ev :=
  match findEntry s pk with
  | some e =>
    if e.readonly || ! removeOk pk then
      ({ status := DeletionStatus.error, message := some "unable to stop signing" }, [])
    else
      ({ status := DeletionStatus.deleted, message := none },
        [Ev.removeKey pk, Ev.exportRecord pk])
  | none =>
    if (lookupRecord s.protection pk).isSome then
      ({ status := DeletionStatus.not_active, message := none }, [Ev.exportRecord pk])
    else ({ status := DeletionStatus.not_found, message := none }, [])

/-- Modelled from the spec: the delete batch loop.  Returns the per-pubkey
statuses, the collated protection export (records for exactly the pubkeys whose
status is `deleted` or `not_active`, read from the store and retained there),
and the durable event trace. -/
def deleteGo (removeOk : Pubkey → Bool) :
    KeymanagerState → List Pubkey →
      List (StatusEntry DeletionStatus) × List (Pubkey × SlashingProtectionRecord) × List Ev
  | _, [] => ([], [], [])
  | s, pk :: rest =>
    let r := deleteOne removeOk s pk
    let exp :=
      if r.1.status = DeletionStatus.deleted ∨ r.1.status = DeletionStatus.not_active then
        [(pk, (lookupRecord s.protection pk).getD emptyRecord)]
      else []
    let r2 := deleteGo removeOk (replay s r.2) rest
    (r.1 :: r2.1, exp ++ r2.2.1, r.2 ++ r2.2.2)

/-- Modelled from the spec: `Api.deleteKeystores`.  Never a whole-batch
failure, even if every pubkey is unknown. -/
def deleteKeystores (removeOk : Pubkey → Bool) (s : KeymanagerState)
    (pubkeysHex : List Pubkey) :
    List (StatusEntry DeletionStatus) × List (Pubkey × SlashingProtectionRecord) × List Ev :=
  deleteGo removeOk s pubkeysHex

/-- State of both stores after a `deleteKeystores` call completes. -/
def deleteFinal (removeOk : Pubkey → Bool) (s : KeymanagerState)
    (pubkeysHex : List Pubkey) : KeymanagerState :=
  replay s (deleteKeystores removeOk s pubkeysHex).2.2

/-- Body of the `importKeystores` request as serialized on the wire
(src/packages/api/src/keymanager/routes.ts, `ImportKeystoresReq`). -/
structure ImportKeystoresReqBody where
  keystores : List String
  passwords : List String
  slashingProtection : String
  deriving DecidableEq

/-- The `importKeystores` request of `ReqTypes`. -/
structure ImportKeystoresReq where
  body : ImportKeystoresReqBody
  deriving DecidableEq

/-- Body of the `deleteKeystores` request as serialized on the wire. -/
structure DeleteKeystoresReqBody where
  pubkeys : List String
  deriving DecidableEq

/-- The `deleteKeystores` request of `ReqTypes`. -/
structure DeleteKeystoresReq where
  body : DeleteKeystoresReqBody
  deriving DecidableEq

/-- `getReqSerializers().importKeystores.writeReq` of routes.ts. -/
def importKeystores_writeReq (keystores passwords : List String)
    (slashingProtection : String) : ImportKeystoresReq :=
  { body :=
      { keystores := keystores, passwords := passwords,
        slashingProtection := slashingProtection } }

/-- `getReqSerializers().importKeystores.parseReq` of routes.ts. -/
def importKeystores_parseReq (r : ImportKeystoresReq) :
    List String × List String × String :=
  (r.body.keystores, r.body.passwords, r.body.slashingProtection)

/-- `getReqSerializers().deleteKeystores.writeReq` of routes.ts. -/
def deleteKeystores_writeReq (pubkeys : List String) : DeleteKeystoresReq :=
  { body := { pubkeys := pubkeys } }

/-- `getReqSerializers().deleteKeystores.parseReq` of routes.ts. -/
def deleteKeystores_parseReq (r : DeleteKeystoresReq) : List String :=
  r.body.pubkeys

/-- Invariant of the import trace: any pubkey active in `s` was either already
active in the pre-call state `st0`, or the SlashingProtectionStore of `s`
already holds a record containing that pubkey's full slice of the parsed
protection payload. -/
def ProtectionFirst (st0 : KeymanagerState) (ipt : Interchange)
    (s : KeymanagerState) : Prop :=
  ∀ pk : Pubkey, activeIn s pk = true →
    activeIn st0 pk = true ∨
      ∃ r, lookupRecord s.protection pk = some r ∧ recContains r (mergedSlice ipt pk)

/-! ### Basic lemmas about records, stores and traces -/

theorem recContains_refl (r : SlashingProtectionRecord) : recContains r r :=
  ⟨fun _ hx => hx, fun _ hx => hx⟩

theorem recContains_trans {a b c : SlashingProtectionRecord}
    (hab : recContains a b) (hbc : recContains b c) : recContains a c :=
  ⟨fun x hx => hab.1 x (hbc.1 x hx), fun x hx => hab.2 x (hbc.2 x hx)⟩

theorem recContains_union_left (a b : SlashingProtectionRecord) :
    recContains (unionRecord a b) a := by
  constructor
  · intro x hx
    exact List.mem_append.mpr (Or.inl hx)
  · intro x hx
    exact List.mem_append.mpr (Or.inl hx)

theorem recContains_union_right (a b : SlashingProtectionRecord) :
    recContains (unionRecord a b) b := by
  constructor
  · intro x hx
    by_cases hmem : x ∈ a.signed_blocks
    · exact List.mem_append.mpr (Or.inl hmem)
    · refine List.mem_append.mpr (Or.inr ?_)
      refine List.mem_filter.mpr ⟨hx, ?_⟩
      simp [List.contains_iff_exists_mem_beq] at hmem ⊢
      exact hmem
  · intro x hx
    by_cases hmem : x ∈ a.signed_attestations
    · exact List.mem_append.mpr (Or.inl hmem)
    · refine List.mem_append.mpr (Or.inr ?_)
      refine List.mem_filter.mpr ⟨hx, ?_⟩
      simp [List.contains_iff_exists_mem_beq] at hmem ⊢
      exact hmem

theorem replay_append (s : KeymanagerState) (l1 l2 : List Ev) :
    replay s (l1 ++ l2) = replay (replay s l1) l2 := by
  induction l1 generalizing s with
  | nil => rfl
  | cons e t ih => simp [replay, List.cons_append, ih]

theorem lookupRecord_nil (pk : Pubkey) : lookupRecord [] pk = none := rfl

theorem lookupRecord_cons (q : Pubkey × SlashingProtectionRecord)
    (t : List (Pubkey × SlashingProtectionRecord)) (pk : Pubkey) :
    lookupRecord (q :: t) pk =
      if q.1 == pk then some q.2 else lookupRecord t pk := by
  by_cases h : q.1 == pk <;> simp [lookupRecord, List.find?, h]

theorem lookupRecord_mergeIntoStore_self (prot : List (Pubkey × SlashingProtectionRecord))
    (pk : Pubkey) (rec : SlashingProtectionRecord) :
    lookupRecord (mergeIntoStore prot pk rec) pk =
      some (match lookupRecord prot pk with
            | some r => unionRecord r rec
            | none => rec) := by
  induction prot with
  | nil => simp [mergeIntoStore, lookupRecord, List.find?]
  | cons q t ih =>
    by_cases h : q.1 == pk
    · simp [mergeIntoStore, h, lookupRecord_cons]
    · simp [mergeIntoStore, h, lookupRecord_cons, ih]

theorem lookupRecord_mergeIntoStore_other (prot : List (Pubkey × SlashingProtectionRecord))
    (pk pk' : Pubkey) (rec : SlashingProtectionRecord) (h : pk' ≠ pk) :
    lookupRecord (mergeIntoStore prot pk rec) pk' = lookupRecord prot pk' := by
  induction prot with
  | nil =>
    have hne : ¬ (pk == pk') = true := by
      simpa [beq_iff_eq] using fun he => h he.symm
    simp [mergeIntoStore, lookupRecord, List.find?, hne]
  | cons q t ih =>
    by_cases hq : q.1 == pk
    · have hq' : ¬ (q.1 == pk') = true := by
        have : q.1 = pk := by simpa [beq_iff_eq] using hq
        simpa [beq_iff_eq, this] using fun he => h he.symm
      simp [mergeIntoStore, hq, lookupRecord_cons, hq']
    · by_cases hq' : q.1 == pk'
      · simp [mergeIntoStore, hq, lookupRecord_cons, hq']
      · simp [mergeIntoStore, hq, lookupRecord_cons, hq', ih]

theorem any_eq_isSome_find? (l : List KeyEntry) (pk : Pubkey) :
    l.any (fun e => e.pubkey == pk) = (l.find? (fun e => e.pubkey == pk)).isSome := by
  induction l with
  | nil => rfl
  | cons a t ih => by_cases h : a.pubkey == pk <;> simp [List.any_cons, List.find?, h, ih]

theorem activeIn_eq_isSome (s : KeymanagerState) (pk : Pubkey) :
    activeIn s pk = (findEntry s pk).isSome :=
  any_eq_isSome_find? s.keystore pk

theorem find?_filter_self (l : List KeyEntry) (pk : Pubkey) :
    (l.filter (fun e => ! (e.pubkey == pk))).find? (fun e => e.pubkey == pk) = none := by
  induction l with
  | nil => rfl
  | cons a t ih => by_cases h : a.pubkey == pk <;> simp [List.filter_cons, h, List.find?, ih]

theorem find?_filter_other (l : List KeyEntry) (pk pk' : Pubkey) (h : pk ≠ pk') :
    (l.filter (fun e => ! (e.pubkey == pk'))).find? (fun e => e.pubkey == pk) =
      l.find? (fun e => e.pubkey == pk) := by
  induction l with
  | nil => rfl
  | cons a t ih =>
    by_cases h1 : a.pubkey == pk'
    · have ha : a.pubkey = pk' := by simpa [beq_iff_eq] using h1
      have h2 : ¬ (a.pubkey == pk) = true := by
        simpa [beq_iff_eq, ha] using fun he => h he.symm
      simp [List.filter_cons, h1, List.find?, h2, ih]
    · by_cases h2 : a.pubkey == pk <;> simp [List.filter_cons, h1, List.find?, h2, ih]

theorem protection_addKey (s : KeymanagerState) (e : KeyEntry) :
    (applyEv s (Ev.addKey e)).protection = s.protection := rfl

theorem protection_removeKey (s : KeymanagerState) (pk : Pubkey) :
    (applyEv s (Ev.removeKey pk)).protection = s.protection := rfl

theorem protection_exportRecord (s : KeymanagerState) (pk : Pubkey) :
    (applyEv s (Ev.exportRecord pk)).protection = s.protection := rfl

theorem keystore_mergeProtection (s : KeymanagerState) (pk : Pubkey)
    (rec : SlashingProtectionRecord) :
    (applyEv s (Ev.mergeProtection pk rec)).keystore = s.keystore := rfl

theorem findEntry_mergeProtection (s : KeymanagerState) (pk0 : Pubkey)
    (rec : SlashingProtectionRecord) (pk : Pubkey) :
    findEntry (applyEv s (Ev.mergeProtection pk0 rec)) pk = findEntry s pk := rfl

theorem activeIn_mergeProtection (s : KeymanagerState) (pk0 : Pubkey)
    (rec : SlashingProtectionRecord) (pk : Pubkey) :
    activeIn (applyEv s (Ev.mergeProtection pk0 rec)) pk = activeIn s pk := rfl

theorem findEntry_exportRecord (s : KeymanagerState) (pk0 pk : Pubkey) :
    findEntry (applyEv s (Ev.exportRecord pk0)) pk = findEntry s pk := rfl

theorem activeIn_addKey (s : KeymanagerState) (e : KeyEntry) (pk : Pubkey) :
    activeIn (applyEv s (Ev.addKey e)) pk = (activeIn s pk || (e.pubkey == pk)) := by
  simp [activeIn, applyEv, List.any_append]

theorem findEntry_addKey (s : KeymanagerState) (e : KeyEntry) (pk : Pubkey) :
    findEntry (applyEv s (Ev.addKey e)) pk =
      (findEntry s pk).or (if e.pubkey == pk then some e else none) := by
  by_cases h : e.pubkey == pk <;> simp [findEntry, applyEv, List.find?_append, List.find?, h]

theorem findEntry_removeKey_self (s : KeymanagerState) (pk : Pubkey) :
    findEntry (applyEv s (Ev.removeKey pk)) pk = none :=
  find?_filter_self s.keystore pk

theorem findEntry_removeKey_other (s : KeymanagerState) (pk pk' : Pubkey) (h : pk ≠ pk') :
    findEntry (applyEv s (Ev.removeKey pk')) pk = findEntry s pk :=
  find?_filter_other s.keystore pk pk' h

theorem activeIn_removeKey_self (s : KeymanagerState) (pk : Pubkey) :
    activeIn (applyEv s (Ev.removeKey pk)) pk = false := by
  rw [activeIn_eq_isSome, findEntry_removeKey_self]
  rfl

theorem lookupRecord_merge_mono (prot : List (Pubkey × SlashingProtectionRecord))
    (pk0 : Pubkey) (rec0 : SlashingProtectionRecord) (pk : Pubkey)
    (r : SlashingProtectionRecord) (h : lookupRecord prot pk = some r) :
    ∃ r2, lookupRecord (mergeIntoStore prot pk0 rec0) pk = some r2 ∧ recContains r2 r := by
  by_cases he : pk = pk0
  · subst he
    refine ⟨unionRecord r rec0, ?_, recContains_union_left r rec0⟩
    simp [lookupRecord_mergeIntoStore_self, h]
  · rw [lookupRecord_mergeIntoStore_other prot pk0 pk rec0 he, h]
    exact ⟨r, rfl, recContains_refl r⟩

/-! ### The import ordering invariant (claim C1) -/

theorem protectionFirst_merge (st0 : KeymanagerState) (ipt : Interchange)
    (s : KeymanagerState) (pk0 : Pubkey) (rec : SlashingProtectionRecord)
    (h : ProtectionFirst st0 ipt s) :
    ProtectionFirst st0 ipt (applyEv s (Ev.mergeProtection pk0 rec)) := by
  intro pk hact
  rw [activeIn_mergeProtection] at hact
  rcases h pk hact with h0 | ⟨r, hr, hcont⟩
  · exact Or.inl h0
  · rcases lookupRecord_merge_mono s.protection pk0 rec pk r hr with ⟨r2, hr2, hc2⟩
    exact Or.inr ⟨r2, by simpa [applyEv] using hr2, recContains_trans hc2 hcont⟩

theorem protectionFirst_import_step (st0 : KeymanagerState) (ipt : Interchange)
    (s : KeymanagerState) (pk0 : Pubkey) (path : Option String)
    (h : ProtectionFirst st0 ipt s) :
    ProtectionFirst st0 ipt
      (applyEv (applyEv s (Ev.mergeProtection pk0 (mergedSlice ipt pk0)))
        (Ev.addKey { pubkey := pk0, derivationPath := path, readonly := false })) := by
  intro pk hact
  rw [activeIn_addKey] at hact
  rcases Bool.or_eq_true_iff.mp hact with h1 | h2
  · exact protectionFirst_merge st0 ipt s pk0 (mergedSlice ipt pk0) h pk h1
  · have hpk : pk0 = pk := by simpa [beq_iff_eq] using h2
    subst hpk
    refine Or.inr ?_
    cases hl : lookupRecord s.protection pk0 with
    | none =>
      refine ⟨mergedSlice ipt pk0, ?_, recContains_refl _⟩
      simp [applyEv, lookupRecord_mergeIntoStore_self, hl]
    | some r =>
      refine ⟨unionRecord r (mergedSlice ipt pk0), ?_, recContains_union_right _ _⟩
      simp [applyEv, lookupRecord_mergeIntoStore_self, hl]

theorem importGo_crash_inv (decrypt : String → String → DecryptResult) (ipt : Interchange)
    (st0 : KeymanagerState) :
    ∀ (pairs : List (String × String)) (s : KeymanagerState),
      ProtectionFirst st0 ipt s →
      ∀ p t : List Ev, p ++ t = (importGo decrypt ipt s pairs).2 →
        ProtectionFirst st0 ipt (replay s p) := by
  intro pairs
  induction pairs with
  | nil =>
    intro s hs p t hpt
    simp only [importGo] at hpt
    obtain ⟨hp, -⟩ := List.append_eq_nil.mp hpt
    subst hp
    exact hs
  | cons x rest ih =>
    intro s hs p t hpt
    cases hd : decrypt x.1 x.2 with
    | err m =>
      simp only [importGo, importOne, hd] at hpt
      exact ih s hs p t hpt
    | ok pk path =>
      by_cases hact : activeIn s pk
      · simp only [importGo, importOne, hd, if_pos hact] at hpt
        exact ih s hs p t hpt
      · simp only [importGo, importOne, hd, if_neg hact] at hpt
        cases p with
        | nil => exact hs
        | cons e1 p1 =>
          rw [List.cons_append, List.cons_append] at hpt
          obtain ⟨he1, hpt1⟩ := List.cons.inj hpt
          subst he1
          cases p1 with
          | nil => exact protectionFirst_merge st0 ipt s pk (mergedSlice ipt pk) hs
          | cons e2 p2 =>
            rw [List.cons_append, List.singleton_append] at hpt1
            obtain ⟨he2, hpt2⟩ := List.cons.inj hpt1
            subst he2
            have hs2 := protectionFirst_import_step st0 ipt s pk path hs
            have hres := ih _ hs2 p2 t hpt2
            simpa [replay] using hres

/-- Claim C1: in `importKeystores`, for every keystore that decrypts
successfully and whose pubkey is not already active, the merge of that
pubkey's slashing-protection slice is durably committed strictly before the
`KeyEntry` is added: replaying any prefix `p` of the call's durable event
trace (every crash-reachable state) yields a state in which every newly
signing-capable pubkey already has a protection record containing its full
slice of the parsed payload. -/
theorem importKeystores_protection_before_capability
    (decrypt : String → String → DecryptResult)
    (parseInterchange : String → Option Interchange) (st : KeymanagerState)
    (keystoresStr passwords : List String) (slashingProtectionStr : String)
    (ipt : Interchange) (sts : List (StatusEntry ImportStatus)) (evs : List Ev)
    (hparse : parseInterchange slashingProtectionStr = some ipt)
    (hok : importKeystores decrypt parseInterchange st keystoresStr passwords
        slashingProtectionStr = Except.ok (sts, evs))
    (p t : List Ev) (hsplit : p ++ t = evs) :
    ∀ pk : Pubkey, activeIn (replay st p) pk = true → activeIn st pk = false →
      ∃ r, lookupRecord (replay st p).protection pk = some r ∧
        recContains r (mergedSlice ipt pk) := by
  intro pk hact hnew
  simp only [importKeystores, hparse] at hok
  by_cases hlen : keystoresStr.length = passwords.length
  · rw [if_pos hlen] at hok
    have hevs : evs = (importGo decrypt ipt st (keystoresStr.zip passwords)).2 := by
      have := (Except.ok.injEq _ _).mp hok
      exact (congrArg Prod.snd this).symm
    have hbase : ProtectionFirst st ipt st := fun _ h => Or.inl h
    have hinv := importGo_crash_inv decrypt ipt st (keystoresStr.zip passwords) st hbase
      p t (by rw [hsplit, hevs])
    rcases hinv pk hact with h0 | hr
    · rw [hnew] at h0
      exact absurd h0 (by simp)
    · exact hr
  · rw [if_neg hlen] at hok
    exact absurd hok (by simp)

/-- Concrete instantiation of claim C1's theorem: importing one fresh keystore
from the empty state and replaying the full trace. -/
theorem importKeystores_protection_before_capability_witness :
    ∃ r, lookupRecord (replay ⟨[], []⟩
        [Ev.mergeProtection "p1" ⟨[5], [(0, 1)]⟩,
         Ev.addKey ⟨"p1", none, false⟩]).protection "p1" = some r ∧
      recContains r (mergedSlice ⟨"gvr", [⟨"p1", [5], [(0, 1)]⟩]⟩ "p1") :=
  importKeystores_protection_before_capability
    (fun ks _ => if ks = "k" then DecryptResult.ok "p1" none else DecryptResult.err "bad")
    (fun str => if str = "sp" then some ⟨"gvr", [⟨"p1", [5], [(0, 1)]⟩]⟩ else none)
    ⟨[], []⟩ ["k"] ["pw"] "sp" ⟨"gvr", [⟨"p1", [5], [(0, 1)]⟩]⟩
    [⟨ImportStatus.imported, none⟩]
    [Ev.mergeProtection "p1" ⟨[5], [(0, 1)]⟩, Ev.addKey ⟨"p1", none, false⟩]
    (by rfl) (by rfl)
    [Ev.mergeProtection "p1" ⟨[5], [(0, 1)]⟩, Ev.addKey ⟨"p1", none, false⟩] []
    (by rfl) "p1" (by rfl) (by rfl)

/-! ### The delete ordering invariant (claim C2) -/

theorem deleteGo_exports_inactive (removeOk : Pubkey → Bool) :
    ∀ (pks : List Pubkey) (s : KeymanagerState) (p q : List Ev) (pk : Pubkey),
      (deleteGo removeOk s pks).2.2 = p ++ Ev.exportRecord pk :: q →
      activeIn (replay s p) pk = false := by
  intro pks
  induction pks with
  | nil =>
    intro s p q pk h
    simp [deleteGo] at h
  | cons pk0 rest ih =>
    intro s p q pk h
    cases hf : findEntry s pk0 with
    | some e =>
      by_cases hfail : (e.readonly || ! removeOk pk0) = true
      · simp only [deleteGo, deleteOne, hf, if_pos hfail, List.nil_append] at h
        exact ih s p q pk h
      · simp only [deleteGo, deleteOne, hf, if_neg hfail, List.cons_append,
          List.nil_append] at h
        cases p with
        | nil => simp at h
        | cons f1 p1 =>
          rw [List.cons_append] at h
          obtain ⟨hf1, h1⟩ := List.cons.inj h
          subst hf1
          cases p1 with
          | nil =>
            obtain ⟨hpk, -⟩ := List.cons.inj h1
            have hpk2 : pk0 = pk := Ev.exportRecord.inj hpk
            subst hpk2
            exact activeIn_removeKey_self s pk0
          | cons f2 p2 =>
            rw [List.cons_append] at h1
            obtain ⟨hf2, h2⟩ := List.cons.inj h1
            subst hf2
            have hres := ih (replay s [Ev.removeKey pk0, Ev.exportRecord pk0]) p2 q pk h2
            simpa [replay] using hres
    | none =>
      by_cases hrec : (lookupRecord s.protection pk0).isSome = true
      · simp only [deleteGo, deleteOne, hf, if_pos hrec, List.cons_append,
          List.nil_append] at h
        cases p with
        | nil =>
          obtain ⟨hpk, -⟩ := List.cons.inj h
          have hpk2 : pk0 = pk := Ev.exportRecord.inj hpk
          subst hpk2
          show activeIn s pk0 = false
          rw [activeIn_eq_isSome, hf]
          rfl
        | cons f1 p1 =>
          rw [List.cons_append] at h
          obtain ⟨hf1, h1⟩ := List.cons.inj h
          subst hf1
          have hres := ih (replay s [Ev.exportRecord pk0]) p1 q pk h1
          simpa [replay] using hres
      · simp only [deleteGo, deleteOne, hf, if_neg hrec, List.nil_append] at h
        exact ih s p q pk h

/-- Claim C2: in `deleteKeystores`, the capability-revoking removal of a
pubkey from the KeyStore is durably committed strictly before any
export/collation step runs for that pubkey: at every point of the durable
event trace where `exportRecord pk` occurs, replaying the preceding events
yields a state in which `pk` is no longer signing-capable. -/
theorem deleteKeystores_revoke_before_export (removeOk : Pubkey → Bool)
    (st : KeymanagerState) (pubkeysHex : List Pubkey) (p q : List Ev) (pk : Pubkey)
    (hsplit : (deleteKeystores removeOk st pubkeysHex).2.2 =
      p ++ Ev.exportRecord pk :: q) :
    activeIn (replay st p) pk = false :=
  deleteGo_exports_inactive removeOk pubkeysHex st p q pk hsplit

/-- Concrete instantiation of claim C2's theorem: deleting the only active
key, the export event is preceded by the removal and the key is inactive at
that point. -/
theorem deleteKeystores_revoke_before_export_witness :
    activeIn (replay ⟨[⟨"a", none, false⟩], [("a", ⟨[3], []⟩)]⟩
      [Ev.removeKey "a"]) "a" = false :=
  deleteKeystores_revoke_before_export (fun _ => true)
    ⟨[⟨"a", none, false⟩], [("a", ⟨[3], []⟩)]⟩ ["a"]
    [Ev.removeKey "a"] [] "a" (by rfl)

/-! ### Batch shape: one status per input item (claim C3) -/

theorem importGo_length (decrypt : String → String → DecryptResult) (ipt : Interchange) :
    ∀ (pairs : List (String × String)) (s : KeymanagerState),
      (importGo decrypt ipt s pairs).1.length = pairs.length := by
  intro pairs
  induction pairs with
  | nil => intro s; rfl
  | cons x rest ih =>
    intro s
    simp only [importGo, List.length_cons]
    rw [ih]

theorem deleteGo_length (removeOk : Pubkey → Bool) :
    ∀ (pks : List Pubkey) (s : KeymanagerState),
      (deleteGo removeOk s pks).1.length = pks.length := by
  intro pks
  induction pks with
  | nil => intro s; rfl
  | cons pk0 rest ih =>
    intro s
    simp only [deleteGo, List.length_cons]
    rw [ih]

theorem deleteGo_all_unknown (removeOk : Pubkey → Bool) :
    ∀ (pks : List Pubkey) (s : KeymanagerState),
      (∀ pk ∈ pks, findEntry s pk = none ∧ lookupRecord s.protection pk = none) →
      ∀ e ∈ (deleteGo removeOk s pks).1, e.status = DeletionStatus.not_found := by
  intro pks
  induction pks with
  | nil =>
    intro s _ e he
    simp [deleteGo] at he
  | cons pk0 rest ih =>
    intro s hunk e he
    obtain ⟨hf0, hr0⟩ := hunk pk0 (List.mem_cons_self pk0 rest)
    have hsome : (lookupRecord s.protection pk0).isSome = false := by rw [hr0]; rfl
    simp only [deleteGo, deleteOne, hf0, hsome, Bool.false_eq_true, if_false,
      List.mem_cons] at he
    rcases he with he | he
    · rw [he]
    · exact ih s (fun pk hpk => hunk pk (List.mem_cons_of_mem pk0 hpk)) e he

/-- Claim C3: every batch call returns exactly one status per input item, in
input order by position: `importKeystores` (when it accepts the request)
returns as many statuses as keystores, `deleteKeystores` returns as many
statuses as pubkeys, and a per-item failure never turns into a whole-call
failure — deleting only unknown pubkeys still succeeds, answering
`not_found` for each. -/
theorem batch_one_status_per_item
    (decrypt : String → String → DecryptResult)
    (parseInterchange : String → Option Interchange) (st st2 : KeymanagerState)
    (keystoresStr passwords : List String) (slashingProtectionStr : String)
    (sts : List (StatusEntry ImportStatus)) (evs : List Ev)
    (removeOk : Pubkey → Bool) (pubkeysHex : List Pubkey)
    (hok : importKeystores decrypt parseInterchange st keystoresStr passwords
        slashingProtectionStr = Except.ok (sts, evs)) :
    sts.length = keystoresStr.length ∧
    (deleteKeystores removeOk st2 pubkeysHex).1.length = pubkeysHex.length ∧
    ((∀ pk ∈ pubkeysHex, findEntry st2 pk = none ∧
        lookupRecord st2.protection pk = none) →
      ∀ e ∈ (deleteKeystores removeOk st2 pubkeysHex).1,
        e.status = DeletionStatus.not_found) := by
  refine ⟨?_, deleteGo_length removeOk pubkeysHex st2,
    deleteGo_all_unknown removeOk pubkeysHex st2⟩
  simp only [importKeystores] at hok
  by_cases hlen : keystoresStr.length = passwords.length
  · rw [if_pos hlen] at hok
    cases hparse : parseInterchange slashingProtectionStr with
    | none => rw [hparse] at hok; exact absurd hok (by simp)
    | some ipt =>
      rw [hparse] at hok
      have hsts : sts = (importGo decrypt ipt st (keystoresStr.zip passwords)).1 := by
        have := (Except.ok.injEq _ _).mp hok
        exact (congrArg Prod.fst this).symm
      rw [hsts, importGo_length]
      simp [List.length_zip, hlen]
  · rw [if_neg hlen] at hok
    exact absurd hok (by simp)

/-- Concrete instantiation of claim C3's theorem: a one-item import batch
whose only keystore fails to decrypt still yields one status, and deleting a
single unknown pubkey yields one `not_found` status. -/
theorem batch_one_status_per_item_witness :
    [(⟨ImportStatus.error, some "bad"⟩ : StatusEntry ImportStatus)].length =
      ["k"].length ∧
    (deleteKeystores (fun _ => true) ⟨[], []⟩ ["z"]).1.length = ["z"].length ∧
    ((∀ pk ∈ ["z"], findEntry ⟨[], []⟩ pk = none ∧
        lookupRecord (KeymanagerState.mk [] []).protection pk = none) →
      ∀ e ∈ (deleteKeystores (fun _ => true) ⟨[], []⟩ ["z"]).1,
        e.status = DeletionStatus.not_found) :=
  batch_one_status_per_item (fun _ _ => DecryptResult.err "bad")
    (fun _ => some ⟨"gvr", []⟩) ⟨[], []⟩ ⟨[], []⟩ ["k"] ["pw"] "sp"
    [⟨ImportStatus.error, some "bad"⟩] [] (fun _ => true) ["z"] (by rfl)

/-! ### Deletion status derivation (claim C4) -/

/-- Claim C4: the per-pubkey deletion status is derived in priority order:
`deleted` when the key was present (removal allowed and succeeding — it is
removed by the step's own durable events) and a protection record exists;
`not_active` when the key is absent from the KeyStore but a protection record
exists; `not_found` when neither the key nor a protection record exists. -/
theorem deleteOne_status_priority (removeOk : Pubkey → Bool) (s : KeymanagerState)
    (pk : Pubkey) :
    ((∃ e, findEntry s pk = some e ∧ e.readonly = false) → removeOk pk = true →
      (lookupRecord s.protection pk).isSome = true →
      ((deleteOne removeOk s pk).1.status = DeletionStatus.deleted ∧
        findEntry (replay s (deleteOne removeOk s pk).2) pk = none)) ∧
    (findEntry s pk = none → (lookupRecord s.protection pk).isSome = true →
      (deleteOne removeOk s pk).1.status = DeletionStatus.not_active) ∧
    (findEntry s pk = none → lookupRecord s.protection pk = none →
      (deleteOne removeOk s pk).1.status = DeletionStatus.not_found) := by
  refine ⟨?_, ?_, ?_⟩
  · rintro ⟨e, he, hro⟩ hok _
    have hfail : (e.readonly || ! removeOk pk) = false := by rw [hro, hok]; rfl
    constructor
    · simp [deleteOne, he, hfail]
    · have hev : (deleteOne removeOk s pk).2 = [Ev.removeKey pk, Ev.exportRecord pk] := by
        simp [deleteOne, he, hfail]
      rw [hev]
      show findEntry (applyEv (applyEv s (Ev.removeKey pk)) (Ev.exportRecord pk)) pk = none
      rw [findEntry_exportRecord, findEntry_removeKey_self]
  · intro hf hrec
    simp [deleteOne, hf, hrec]
  · intro hf hrec
    have hsome : (lookupRecord s.protection pk).isSome = false := by rw [hrec]; rfl
    simp [deleteOne, hf, hsome]

/-- Concrete instantiation of claim C4's theorem: all three priority cases on
small concrete states. -/
theorem deleteOne_status_priority_witness :
    ((deleteOne (fun _ => true) ⟨[⟨"a", none, false⟩], [("a", ⟨[3], []⟩)]⟩ "a").1.status
        = DeletionStatus.deleted ∧
      findEntry (replay ⟨[⟨"a", none, false⟩], [("a", ⟨[3], []⟩)]⟩
        (deleteOne (fun _ => true) ⟨[⟨"a", none, false⟩], [("a", ⟨[3], []⟩)]⟩ "a").2) "a"
        = none) ∧
    (deleteOne (fun _ => true) ⟨[], [("b", ⟨[], []⟩)]⟩ "b").1.status
      = DeletionStatus.not_active ∧
    (deleteOne (fun _ => true) ⟨[], []⟩ "c").1.status = DeletionStatus.not_found :=
  ⟨(deleteOne_status_priority (fun _ => true)
      ⟨[⟨"a", none, false⟩], [("a", ⟨[3], []⟩)]⟩ "a").1
      ⟨⟨"a", none, false⟩, by rfl, by rfl⟩ (by rfl) (by rfl),
   (deleteOne_status_priority (fun _ => true) ⟨[], [("b", ⟨[], []⟩)]⟩ "b").2.1
      (by rfl) (by rfl),
   (deleteOne_status_priority (fun _ => true) ⟨[], []⟩ "c").2.2 (by rfl) (by rfl)⟩

/-! ### Export exactness and retention (claim C5) -/

theorem deleteOne_events_shape (removeOk : Pubkey → Bool) (s : KeymanagerState)
    (pk : Pubkey) :
    (deleteOne removeOk s pk).2 = [] ∨
    (deleteOne removeOk s pk).2 = [Ev.removeKey pk, Ev.exportRecord pk] ∨
    (deleteOne removeOk s pk).2 = [Ev.exportRecord pk] := by
  cases hf : findEntry s pk with
  | some e =>
    by_cases hfail : (e.readonly || ! removeOk pk) = true
    · exact Or.inl (by simp [deleteOne, hf, hfail])
    · exact Or.inr (Or.inl (by simp [deleteOne, hf, hfail]))
  | none =>
    by_cases hrec : (lookupRecord s.protection pk).isSome = true
    · exact Or.inr (Or.inr (by simp [deleteOne, hf, hrec]))
    · exact Or.inl (by simp [deleteOne, hf, hrec])

theorem protection_replay_deleteOne (removeOk : Pubkey → Bool) (s s0 : KeymanagerState)
    (pk : Pubkey) :
    (replay s0 (deleteOne removeOk s pk).2).protection = s0.protection := by
  rcases deleteOne_events_shape removeOk s pk with h | h | h <;> rw [h] <;> rfl

theorem deleteGo_protection (removeOk : Pubkey → Bool) :
    ∀ (pks : List Pubkey) (s : KeymanagerState),
      (replay s (deleteGo removeOk s pks).2.2).protection = s.protection := by
  intro pks
  induction pks with
  | nil => intro s; rfl
  | cons pk0 rest ih =>
    intro s
    have hsplit : (deleteGo removeOk s (pk0 :: rest)).2.2 =
        (deleteOne removeOk s pk0).2 ++
          (deleteGo removeOk (replay s (deleteOne removeOk s pk0).2) rest).2.2 := by
      simp [deleteGo]
    rw [hsplit, replay_append, ih]
    exact protection_replay_deleteOne removeOk s s pk0

theorem deleteGo_export_fst (removeOk : Pubkey → Bool) :
    ∀ (pks : List Pubkey) (s : KeymanagerState),
      ((deleteGo removeOk s pks).2.1).map Prod.fst =
        ((pks.zip (deleteGo removeOk s pks).1).filter
          (fun pr => decide (pr.2.status = DeletionStatus.deleted ∨
            pr.2.status = DeletionStatus.not_active))).map Prod.fst := by
  intro pks
  induction pks with
  | nil => intro s; rfl
  | cons pk0 rest ih =>
    intro s
    by_cases hc : (deleteOne removeOk s pk0).1.status = DeletionStatus.deleted ∨
        (deleteOne removeOk s pk0).1.status = DeletionStatus.not_active
    · simp only [deleteGo, List.zip_cons_cons, List.filter_cons, if_pos hc,
        decide_eq_true hc, List.map_cons, List.map_append]
      rw [ih]
      simp
    · simp only [deleteGo, List.zip_cons_cons, List.filter_cons, if_neg hc,
        decide_eq_false hc, List.map_append]
      rw [ih]
      simp

/-- Claim C5: the slashing-protection payload returned by `deleteKeystores`
contains records for exactly those request pubkeys (by position) whose status
is `deleted` or `not_active` — a `not_found` or `error` pubkey contributes no
entry — and the SlashingProtectionStore is unchanged by the call: records are
retained, never purged. -/
theorem deleteKeystores_export_exact (removeOk : Pubkey → Bool)
    (st : KeymanagerState) (pubkeysHex : List Pubkey) :
    ((deleteKeystores removeOk st pubkeysHex).2.1).map Prod.fst =
      ((pubkeysHex.zip (deleteKeystores removeOk st pubkeysHex).1).filter
        (fun pr => decide (pr.2.status = DeletionStatus.deleted ∨
          pr.2.status = DeletionStatus.not_active))).map Prod.fst ∧
    (deleteFinal removeOk st pubkeysHex).protection = st.protection :=
  ⟨deleteGo_export_fst removeOk pubkeysHex st,
   deleteGo_protection removeOk pubkeysHex st⟩

/-! ### Deleting twice (claim C6) -/

/-- Claim C6: for a pubkey that is active, deletable and protected, two
successive `deleteKeystores` calls on it yield `deleted` then `not_active`,
and the slashing-protection export for that pubkey is present and identical
on both calls. -/
theorem deleteKeystores_twice (removeOk : Pubkey → Bool) (st : KeymanagerState)
    (pk : Pubkey) (e : KeyEntry) (r : SlashingProtectionRecord)
    (he : findEntry st pk = some e) (hro : e.readonly = false)
    (hok : removeOk pk = true) (hr : lookupRecord st.protection pk = some r) :
    (deleteKeystores removeOk st [pk]).1.map StatusEntry.status
        = [DeletionStatus.deleted] ∧
    (deleteKeystores removeOk st [pk]).2.1 = [(pk, r)] ∧
    (deleteKeystores removeOk (deleteFinal removeOk st [pk]) [pk]).1.map
        StatusEntry.status = [DeletionStatus.not_active] ∧
    (deleteKeystores removeOk (deleteFinal removeOk st [pk]) [pk]).2.1 = [(pk, r)] := by
  have hfail : (e.readonly || ! removeOk pk) = false := by rw [hro, hok]; rfl
  have hd1 : deleteOne removeOk st pk =
      ({ status := DeletionStatus.deleted, message := none },
        [Ev.removeKey pk, Ev.exportRecord pk]) := by
    simp [deleteOne, he, hfail]
  have hst1 : deleteFinal removeOk st [pk] =
      applyEv (applyEv st (Ev.removeKey pk)) (Ev.exportRecord pk) := by
    simp [deleteFinal, deleteKeystores, deleteGo, hd1, replay]
  have hfe1 : findEntry (deleteFinal removeOk st [pk]) pk = none := by
    rw [hst1, findEntry_exportRecord, findEntry_removeKey_self]
  have hpr1 : (deleteFinal removeOk st [pk]).protection = st.protection := by
    rw [hst1]; rfl
  have hd2 : deleteOne removeOk (deleteFinal removeOk st [pk]) pk =
      ({ status := DeletionStatus.not_active, message := none },
        [Ev.exportRecord pk]) := by
    have hsome : (lookupRecord (deleteFinal removeOk st [pk]).protection pk).isSome
        = true := by
      rw [hpr1, hr]; rfl
    simp [deleteOne, hfe1, hsome]
  refine ⟨?_, ?_, ?_, ?_⟩
  · simp [deleteKeystores, deleteGo, hd1]
  · simp [deleteKeystores, deleteGo, hd1, hr]
  · simp [deleteKeystores, deleteGo, hd2]
  · simp [deleteKeystores, deleteGo, hd2, hpr1, hr]

/-- Concrete instantiation of claim C6's theorem on a one-key state. -/
theorem deleteKeystores_twice_witness :
    (deleteKeystores (fun _ => true) ⟨[⟨"a", none, false⟩], [("a", ⟨[3], []⟩)]⟩
        ["a"]).1.map StatusEntry.status = [DeletionStatus.deleted] ∧
    (deleteKeystores (fun _ => true) ⟨[⟨"a", none, false⟩], [("a", ⟨[3], []⟩)]⟩
        ["a"]).2.1 = [("a", ⟨[3], []⟩)] ∧
    (deleteKeystores (fun _ => true)
        (deleteFinal (fun _ => true) ⟨[⟨"a", none, false⟩], [("a", ⟨[3], []⟩)]⟩ ["a"])
        ["a"]).1.map StatusEntry.status = [DeletionStatus.not_active] ∧
    (deleteKeystores (fun _ => true)
        (deleteFinal (fun _ => true) ⟨[⟨"a", none, false⟩], [("a", ⟨[3], []⟩)]⟩ ["a"])
        ["a"]).2.1 = [("a", ⟨[3], []⟩)] :=
  deleteKeystores_twice (fun _ => true)
    ⟨[⟨"a", none, false⟩], [("a", ⟨[3], []⟩)]⟩ "a" ⟨"a", none, false⟩ ⟨[3], []⟩
    (by rfl) (by rfl) (by rfl) (by rfl)

/-! ### Structural rejection of malformed protection payloads (claim C7) -/

/-- Claim C7: when the slashing-protection payload is structurally malformed
(the parser yields nothing), the entire `importKeystores` call is rejected —
no item is processed — and no durable write happens, so both stores are
exactly the pre-call state. -/
theorem importKeystores_parse_error_rejects
    (decrypt : String → String → DecryptResult)
    (parseInterchange : String → Option Interchange) (st : KeymanagerState)
    (keystoresStr passwords : List String) (slashingProtectionStr : String)
    (hparse : parseInterchange slashingProtectionStr = none) :
    (∃ m, importKeystores decrypt parseInterchange st keystoresStr passwords
        slashingProtectionStr = Except.error m) ∧
    importFinal decrypt parseInterchange st keystoresStr passwords
        slashingProtectionStr = st := by
  by_cases hlen : keystoresStr.length = passwords.length
  · refine ⟨⟨"ParseError", ?_⟩, ?_⟩
    · simp [importKeystores, hlen, hparse]
    · simp [importFinal, importKeystores, hlen, hparse]
  · refine ⟨⟨"mismatched array lengths", ?_⟩, ?_⟩
    · simp [importKeystores, hlen, hparse]
    · simp [importFinal, importKeystores, hlen, hparse]

/-- Concrete instantiation of claim C7's theorem: an always-failing parser on
a nonempty batch over a nonempty state. -/
theorem importKeystores_parse_error_rejects_witness :
    (∃ m, importKeystores (fun _ _ => DecryptResult.ok "p1" none) (fun _ => none)
        ⟨[⟨"b", none, false⟩], []⟩ ["k"] ["pw"] "junk" = Except.error m) ∧
    importFinal (fun _ _ => DecryptResult.ok "p1" none) (fun _ => none)
        ⟨[⟨"b", none, false⟩], []⟩ ["k"] ["pw"] "junk" = ⟨[⟨"b", none, false⟩], []⟩ :=
  importKeystores_parse_error_rejects (fun _ _ => DecryptResult.ok "p1" none)
    (fun _ => none) ⟨[⟨"b", none, false⟩], []⟩ ["k"] ["pw"] "junk" (by rfl)

/-! ### Error status on delete keeps the key active (claim C8) -/

theorem removalFails_eq_true (removeOk : Pubkey → Bool) (s : KeymanagerState)
    (pk : Pubkey) :
    removalFails removeOk s pk = true ↔
      ∃ e, findEntry s pk = some e ∧ (e.readonly || ! removeOk pk) = true := by
  cases hf : findEntry s pk <;> simp [removalFails, hf]

theorem findEntry_replay_deleteOne_other (removeOk : Pubkey → Bool)
    (s : KeymanagerState) (pk0 pk : Pubkey) (h : pk ≠ pk0) :
    findEntry (replay s (deleteOne removeOk s pk0).2) pk = findEntry s pk := by
  rcases deleteOne_events_shape removeOk s pk0 with hev | hev | hev
  · rw [hev]
    rfl
  · rw [hev]
    show findEntry (applyEv (applyEv s (Ev.removeKey pk0)) (Ev.exportRecord pk0)) pk
      = findEntry s pk
    rw [findEntry_exportRecord, findEntry_removeKey_other s pk pk0 h]
  · rw [hev]
    show findEntry (applyEv s (Ev.exportRecord pk0)) pk = findEntry s pk
    rw [findEntry_exportRecord]

theorem findEntry_replay_deleteOne_fails (removeOk : Pubkey → Bool)
    (s : KeymanagerState) (pk0 pk : Pubkey)
    (hfail : removalFails removeOk s pk = true) :
    findEntry (replay s (deleteOne removeOk s pk0).2) pk = findEntry s pk := by
  by_cases hpk : pk = pk0
  · subst hpk
    rcases (removalFails_eq_true removeOk s pk).mp hfail with ⟨e, he, hcond⟩
    have hev : (deleteOne removeOk s pk).2 = [] := by simp [deleteOne, he, hcond]
    rw [hev]
    rfl
  · exact findEntry_replay_deleteOne_other removeOk s pk0 pk hpk

theorem findEntry_replay_deleteOne_back (removeOk : Pubkey → Bool)
    (s : KeymanagerState) (pk0 pk : Pubkey) (e : KeyEntry)
    (h : findEntry (replay s (deleteOne removeOk s pk0).2) pk = some e) :
    findEntry s pk = some e := by
  by_cases hpk : pk = pk0
  · subst hpk
    rcases deleteOne_events_shape removeOk s pk with hev | hev | hev
    · rw [hev] at h
      exact h
    · rw [hev] at h
      have hnone : findEntry (replay s [Ev.removeKey pk, Ev.exportRecord pk]) pk
          = none := by
        show findEntry (applyEv (applyEv s (Ev.removeKey pk)) (Ev.exportRecord pk)) pk
          = none
        rw [findEntry_exportRecord, findEntry_removeKey_self]
      rw [hnone] at h
      exact absurd h (by simp)
    · rw [hev] at h
      exact h
  · rw [findEntry_replay_deleteOne_other removeOk s pk0 pk hpk] at h
    exact h

theorem removalFails_replay_back (removeOk : Pubkey → Bool) (s : KeymanagerState)
    (pk0 pk : Pubkey)
    (h : removalFails removeOk (replay s (deleteOne removeOk s pk0).2) pk = true) :
    removalFails removeOk s pk = true := by
  rcases (removalFails_eq_true removeOk _ pk).mp h with ⟨e, he, hcond⟩
  exact (removalFails_eq_true removeOk s pk).mpr
    ⟨e, findEntry_replay_deleteOne_back removeOk s pk0 pk e he, hcond⟩

theorem removalFails_replay_fwd (removeOk : Pubkey → Bool) (s : KeymanagerState)
    (pk0 pk : Pubkey) (h : removalFails removeOk s pk = true) :
    removalFails removeOk (replay s (deleteOne removeOk s pk0).2) pk = true := by
  rcases (removalFails_eq_true removeOk s pk).mp h with ⟨e, he, hcond⟩
  refine (removalFails_eq_true removeOk _ pk).mpr ⟨e, ?_, hcond⟩
  rw [findEntry_replay_deleteOne_fails removeOk s pk0 pk h]
  exact he

theorem deleteGo_fails_preserved (removeOk : Pubkey → Bool) :
    ∀ (pks : List Pubkey) (s : KeymanagerState) (pk : Pubkey),
      removalFails removeOk s pk = true →
      findEntry (replay s (deleteGo removeOk s pks).2.2) pk = findEntry s pk := by
  intro pks
  induction pks with
  | nil => intro s pk _; rfl
  | cons pk0 rest ih =>
    intro s pk hfail
    have hsplit : (deleteGo removeOk s (pk0 :: rest)).2.2 =
        (deleteOne removeOk s pk0).2 ++
          (deleteGo removeOk (replay s (deleteOne removeOk s pk0).2) rest).2.2 := by
      simp [deleteGo]
    rw [hsplit, replay_append,
      ih (replay s (deleteOne removeOk s pk0).2) pk
        (removalFails_replay_fwd removeOk s pk0 pk hfail)]
    exact findEntry_replay_deleteOne_fails removeOk s pk0 pk hfail

theorem deleteGo_error_only_on_failed_removal (removeOk : Pubkey → Bool) :
    ∀ (pks : List Pubkey) (s : KeymanagerState),
      ∀ pr ∈ pks.zip (deleteGo removeOk s pks).1,
        pr.2.status = DeletionStatus.error → removalFails removeOk s pr.1 = true := by
  intro pks
  induction pks with
  | nil =>
    intro s pr hpr _
    simp [deleteGo] at hpr
  | cons pk0 rest ih =>
    intro s pr hpr herr
    have hst : (deleteGo removeOk s (pk0 :: rest)).1 =
        (deleteOne removeOk s pk0).1 ::
          (deleteGo removeOk (replay s (deleteOne removeOk s pk0).2) rest).1 := by
      simp [deleteGo]
    rw [hst, List.zip_cons_cons, List.mem_cons] at hpr
    rcases hpr with hpr | hpr
    · subst hpr
      cases hf : findEntry s pk0 with
      | some e =>
        by_cases hcond : (e.readonly || ! removeOk pk0) = true
        · exact (removalFails_eq_true removeOk s pk0).mpr ⟨e, hf, hcond⟩
        · simp [deleteOne, hf, hcond] at herr
      | none =>
        by_cases hrec : (lookupRecord s.protection pk0).isSome = true
        · simp [deleteOne, hf, hrec] at herr
        · simp [deleteOne, hf, hrec] at herr
    · exact removalFails_replay_back removeOk s pk0 pr.1
        (ih (replay s (deleteOne removeOk s pk0).2) pr hpr herr)

/-- Claim C8: in `deleteKeystores`, whenever a request pubkey's status is
`error`, the key was present in the KeyStore but its removal failed (readonly
policy or persistence refusal), and the key is still active after the whole
call — it is never reported `deleted` when removal did not succeed. -/
theorem deleteKeystores_error_key_stays (removeOk : Pubkey → Bool)
    (st : KeymanagerState) (pubkeysHex : List Pubkey) :
    ∀ pr ∈ pubkeysHex.zip (deleteKeystores removeOk st pubkeysHex).1,
      pr.2.status = DeletionStatus.error →
        removalFails removeOk st pr.1 = true ∧
        activeIn st pr.1 = true ∧
        activeIn (deleteFinal removeOk st pubkeysHex) pr.1 = true := by
  intro pr hpr herr
  have hfail := deleteGo_error_only_on_failed_removal removeOk pubkeysHex st pr hpr herr
  rcases (removalFails_eq_true removeOk st pr.1).mp hfail with ⟨e, he, -⟩
  have hact : activeIn st pr.1 = true := by
    rw [activeIn_eq_isSome, he]
    rfl
  refine ⟨hfail, hact, ?_⟩
  show activeIn (replay st (deleteGo removeOk st pubkeysHex).2.2) pr.1 = true
  rw [activeIn_eq_isSome, deleteGo_fails_preserved removeOk pubkeysHex st pr.1 hfail, he]
  rfl

/-- Concrete instantiation of claim C8's theorem: deleting a readonly key
yields `error` and the key stays active. -/
theorem deleteKeystores_error_key_stays_witness :
    removalFails (fun _ => true) ⟨[⟨"a", none, true⟩], []⟩ "a" = true ∧
    activeIn ⟨[⟨"a", none, true⟩], []⟩ "a" = true ∧
    activeIn (deleteFinal (fun _ => true) ⟨[⟨"a", none, true⟩], []⟩ ["a"]) "a" = true :=
  deleteKeystores_error_key_stays (fun _ => true) ⟨[⟨"a", none, true⟩], []⟩ ["a"]
    ("a", ⟨DeletionStatus.error, some "unable to stop signing"⟩) (by decide) (by rfl)

/-! ### Re-importing an active pubkey mutates nothing (claim C9) -/

theorem importGo_active_frame (decrypt : String → String → DecryptResult)
    (ipt : Interchange) :
    ∀ (pairs : List (String × String)) (s : KeymanagerState) (pk : Pubkey),
      activeIn s pk = true →
      (∀ pr ∈ pairs.zip (importGo decrypt ipt s pairs).1,
        ∀ path, decrypt pr.1.1 pr.1.2 = DecryptResult.ok pk path →
          pr.2.status = ImportStatus.duplicate) ∧
      findEntry (replay s (importGo decrypt ipt s pairs).2) pk = findEntry s pk ∧
      lookupRecord (replay s (importGo decrypt ipt s pairs).2).protection pk
        = lookupRecord s.protection pk := by
  intro pairs
  induction pairs with
  | nil =>
    intro s pk _
    exact ⟨by intro pr hpr; simp [importGo] at hpr, rfl, rfl⟩
  | cons x rest ih =>
    intro s pk hact
    cases hd : decrypt x.1 x.2 with
    | err m =>
      obtain ⟨ihs, ihf, ihl⟩ := ih s pk hact
      refine ⟨?_, ?_, ?_⟩
      · intro pr hpr path hdec
        simp only [importGo, importOne, hd, replay, List.zip_cons_cons,
          List.mem_cons] at hpr
        rcases hpr with hpr | hpr
        · rw [hpr] at hdec
          simp [hd] at hdec
        · exact ihs pr hpr path hdec
      · simpa only [importGo, importOne, hd, List.nil_append, replay] using ihf
      · simpa only [importGo, importOne, hd, List.nil_append, replay] using ihl
    | ok pk' path' =>
      by_cases hact' : activeIn s pk' = true
      · obtain ⟨ihs, ihf, ihl⟩ := ih s pk hact
        refine ⟨?_, ?_, ?_⟩
        · intro pr hpr path hdec
          simp only [importGo, importOne, hd, if_pos hact', replay,
            List.zip_cons_cons, List.mem_cons] at hpr
          rcases hpr with hpr | hpr
          · rw [hpr]
          · exact ihs pr hpr path hdec
        · simpa only [importGo, importOne, hd, if_pos hact', List.nil_append,
            replay] using ihf
        · simpa only [importGo, importOne, hd, if_pos hact', List.nil_append,
            replay] using ihl
      · have hne : pk' ≠ pk := by
          intro hcontr
          rw [hcontr] at hact'
          exact hact' hact
        have hbne : (pk' == pk) = false := by simpa [beq_iff_eq] using hne
        have hs2 : activeIn (applyEv (applyEv s
            (Ev.mergeProtection pk' (mergedSlice ipt pk')))
            (Ev.addKey ⟨pk', path', false⟩)) pk = true := by
          rw [activeIn_addKey, activeIn_mergeProtection, hact]
          rfl
        obtain ⟨ihs, ihf, ihl⟩ := ih (applyEv (applyEv s
          (Ev.mergeProtection pk' (mergedSlice ipt pk')))
          (Ev.addKey ⟨pk', path', false⟩)) pk hs2
        have hfr1 : findEntry (applyEv (applyEv s
            (Ev.mergeProtection pk' (mergedSlice ipt pk')))
            (Ev.addKey ⟨pk', path', false⟩)) pk = findEntry s pk := by
          rw [findEntry_addKey, findEntry_mergeProtection]
          simp [hbne]
        have hfr2 : lookupRecord (applyEv (applyEv s
            (Ev.mergeProtection pk' (mergedSlice ipt pk')))
            (Ev.addKey ⟨pk', path', false⟩)).protection pk
            = lookupRecord s.protection pk := by
          rw [protection_addKey]
          show lookupRecord (mergeIntoStore s.protection pk' (mergedSlice ipt pk')) pk
            = lookupRecord s.protection pk
          exact lookupRecord_mergeIntoStore_other s.protection pk' pk
            (mergedSlice ipt pk') hne.symm
        refine ⟨?_, ?_, ?_⟩
        · intro pr hpr path hdec
          simp only [importGo, importOne, hd, if_neg hact', replay,
            List.zip_cons_cons, List.mem_cons] at hpr
          rcases hpr with hpr | hpr
          · rw [hpr] at hdec
            rw [hd] at hdec
            have : pk' = pk := (DecryptResult.ok.inj hdec).1
            exact absurd this hne
          · exact ihs pr hpr path hdec
        · have := ihf
          rw [hfr1] at this
          simpa only [importGo, importOne, hd, if_neg hact', List.cons_append,
            List.nil_append, replay] using this
        · have := ihl
          rw [hfr2] at this
          simpa only [importGo, importOne, hd, if_neg hact', List.cons_append,
            List.nil_append, replay] using this

/-- Claim C9: for every keystore in an `importKeystores` batch whose pubkey is
already present in the KeyStore, the returned status for that item is
`duplicate`, and the call leaves both that pubkey's KeyStore entry and its
slashing-protection record exactly unchanged. -/
theorem importKeystores_duplicate_no_mutation
    (decrypt : String → String → DecryptResult)
    (parseInterchange : String → Option Interchange) (st : KeymanagerState)
    (keystoresStr passwords : List String) (slashingProtectionStr : String)
    (ipt : Interchange) (sts : List (StatusEntry ImportStatus)) (evs : List Ev)
    (pk : Pubkey)
    (hparse : parseInterchange slashingProtectionStr = some ipt)
    (hok : importKeystores decrypt parseInterchange st keystoresStr passwords
        slashingProtectionStr = Except.ok (sts, evs))
    (hactive : activeIn st pk = true) :
    (∀ pr ∈ (keystoresStr.zip passwords).zip sts,
      ∀ path, decrypt pr.1.1 pr.1.2 = DecryptResult.ok pk path →
        pr.2.status = ImportStatus.duplicate) ∧
    findEntry (importFinal decrypt parseInterchange st keystoresStr passwords
        slashingProtectionStr) pk = findEntry st pk ∧
    lookupRecord (importFinal decrypt parseInterchange st keystoresStr passwords
        slashingProtectionStr).protection pk = lookupRecord st.protection pk := by
  have hfin : importFinal decrypt parseInterchange st keystoresStr passwords
      slashingProtectionStr = replay st evs := by
    simp [importFinal, hok]
  simp only [importKeystores, hparse] at hok
  by_cases hlen : keystoresStr.length = passwords.length
  · rw [if_pos hlen] at hok
    have hpair := (Except.ok.injEq _ _).mp hok
    have hsts : sts = (importGo decrypt ipt st (keystoresStr.zip passwords)).1 :=
      (congrArg Prod.fst hpair).symm
    have hevs : evs = (importGo decrypt ipt st (keystoresStr.zip passwords)).2 :=
      (congrArg Prod.snd hpair).symm
    obtain ⟨hstat, hf, hl⟩ :=
      importGo_active_frame decrypt ipt (keystoresStr.zip passwords) st pk hactive
    rw [hfin, hevs, hsts]
    exact ⟨hstat, hf, hl⟩
  · rw [if_neg hlen] at hok
    exact absurd hok (by simp)

/-- Concrete instantiation of claim C9's theorem: re-importing the only
active pubkey yields `duplicate` and both stores are untouched. -/
theorem importKeystores_duplicate_no_mutation_witness :
    (∀ pr ∈ ((["k"].zip ["pw"]).zip
        [(⟨ImportStatus.duplicate, none⟩ : StatusEntry ImportStatus)]),
      ∀ path, (fun (_ : String) (_ : String) => DecryptResult.ok "p1" none) pr.1.1 pr.1.2
          = DecryptResult.ok "p1" path →
        pr.2.status = ImportStatus.duplicate) ∧
    findEntry (importFinal (fun _ _ => DecryptResult.ok "p1" none)
        (fun _ => some ⟨"gvr", []⟩) ⟨[⟨"p1", none, false⟩], [("p1", ⟨[7], []⟩)]⟩
        ["k"] ["pw"] "sp") "p1"
      = findEntry ⟨[⟨"p1", none, false⟩], [("p1", ⟨[7], []⟩)]⟩ "p1" ∧
    lookupRecord (importFinal (fun _ _ => DecryptResult.ok "p1" none)
        (fun _ => some ⟨"gvr", []⟩) ⟨[⟨"p1", none, false⟩], [("p1", ⟨[7], []⟩)]⟩
        ["k"] ["pw"] "sp").protection "p1"
      = lookupRecord (KeymanagerState.mk [⟨"p1", none, false⟩]
          [("p1", ⟨[7], []⟩)]).protection "p1" :=
  importKeystores_duplicate_no_mutation (fun _ _ => DecryptResult.ok "p1" none)
    (fun _ => some ⟨"gvr", []⟩) ⟨[⟨"p1", none, false⟩], [("p1", ⟨[7], []⟩)]⟩
    ["k"] ["pw"] "sp" ⟨"gvr", []⟩ [⟨ImportStatus.duplicate, none⟩] [] "p1"
    (by rfl) (by rfl) (by rfl)

/-! ### Request serializer round-trip (claim C10) -/

/-- Claim C10: the request serializers of `getReqSerializers` round-trip: for
`importKeystores`, parsing the written request returns exactly the original
`(keystores, passwords, slashingProtection)` tuple, and for `deleteKeystores`,
parsing the written request returns exactly the original pubkey list. -/
theorem reqSerializers_roundTrip :
    (∀ (keystores passwords : List String) (slashingProtection : String),
      importKeystores_parseReq (importKeystores_writeReq keystores passwords
        slashingProtection) = (keystores, passwords, slashingProtection)) ∧
    ∀ pubkeys : List String,
      deleteKeystores_parseReq (deleteKeystores_writeReq pubkeys) = pubkeys :=
  ⟨fun _ _ _ => rfl, fun _ => rfl⟩

end Keymanager
